import Mathlib

/-!
Verification of the stats-generation script (`.github/scripts/generate-stats.js`).

The script works on calendar dates carried as ISO `YYYY-MM-DD` strings.  In
JavaScript, `new Date(s)` on such a string is midnight UTC of that day, so the
difference of two such `Date`s is an exact multiple of 86 400 000 ms and
`Math.floor((a - b) / 86400000)` is the exact day difference.  We therefore
embed a date-only string as its epoch day number, an `Int`; string equality
(`includes`, `Set` membership) becomes `Int` equality, the comparator
`(a, b) => new Date(b) - new Date(a)` becomes descending numeric order, and
the one-day decrement `setDate(getDate() - 1)` becomes subtraction of 1
(assuming a UTC clock, as on the CI runners; local-time DST shifts are not
modelled).
-/

/-- Result record of `calculateStreaks` (generate-stats.js line 106-110):
`{ current, longest, total }`, all non-negative counters. -/
structure StreakSummary where
  current : Nat
  longest : Nat
  total : Nat
deriving DecidableEq, Repr

/-- The current-streak loop of `calculateStreaks` (lines 75-85):
`for (i = 0; i < sortedDates.length; i++) { if (sortedDates.includes(dateStr))
{ currentStreak++; checkDate.setDate(checkDate.getDate() - 1); } else break; }`.
The loop index `i` only bounds the number of iterations (the `fuel`); the
walked value is `checkDate`, starting from today and decreasing one day per
hit. -/
def currentStreakLoop (sorted : List Int) : Int → Nat → Nat
  | _, 0 => 0
  | checkDate, fuel + 1 =>
    if checkDate ∈ sorted then currentStreakLoop sorted (checkDate - 1) fuel + 1 else 0

/-- The longest-streak loop of `calculateStreaks` (lines 88-102): walking the
descending-sorted distinct dates, `tempStreak` is extended when the day gap of
the adjacent pair is exactly 1, otherwise folded into `longestStreak` and
reset to 1.  The final `longestStreak = Math.max(longestStreak, tempStreak)`
(line 103) is the `[]` case. -/
def longestStreakGo : Int → List Int → Nat → Nat → Nat
  | _, [], tempStreak, longest => max longest tempStreak
  | prev, curr :: rest, tempStreak, longest =>
    if prev - curr = 1 then longestStreakGo curr rest (tempStreak + 1) longest
    else longestStreakGo curr rest 1 (max longest tempStreak)

/-- Lines 88-103 of generate-stats.js: the `i = 0` iteration sets
`tempStreak = 1`; an empty list leaves `tempStreak = 0` so the final
`Math.max(0, 0)` is 0 (that branch is unreachable from `calculateStreaks`,
whose empty-input case returns earlier). -/
def longestStreak : List Int → Nat
  | [] => 0
  | d :: rest => longestStreakGo d rest 1 0

/-- Line 68 of generate-stats.js:
`[...new Set(dates)].sort((a, b) => new Date(b) - new Date(a))` —
the distinct dates in descending order.  `List.dedup` keeps one copy of each
date, and the comparator is a total order on distinct keys, so which duplicate
survives does not affect the sorted result. -/
def sortedDatesOf (dates : List Int) : List Int :=
  (dates.dedup).insertionSort (· ≥ ·)

/-- `calculateStreaks` (generate-stats.js lines 65-111).  `today` stands for
the date of `new Date()` at run time (the code recomputes it as `checkDate`'s
start value). -/
def calculateStreaks (today : Int) (dates : List Int) : StreakSummary :=
  if dates.length = 0 then ⟨0, 0, 0⟩
  else
    let sortedDates := sortedDatesOf dates
    { current := currentStreakLoop sortedDates today sortedDates.length
      longest := longestStreak sortedDates
      total := sortedDates.length }

/-- Spec-side definition (refinement target), from the spec's words: the run
of consecutive present days extending downward from `d` — the greatest `k`
such that `d, d-1, …, d-(k-1)` are all in the date set.  Any such chain has
`k` distinct members, so `k` is at most the number of distinct dates, and the
bound `dates.length` does not truncate it. -/
def runLenFrom (dates : List Int) (d : Int) : Nat :=
  Nat.findGreatest (fun k => ∀ j < k, d - (j : Int) ∈ dates) dates.length

/-- Spec-side definition, from the spec's words: "starting at today, walk
backward one day at a time while each day is present in the set; stop at the
first missing day; the count of consecutive present days (including today if
present) is the current streak". -/
def specCurrentStreak (today : Int) (dates : List Int) : Nat :=
  runLenFrom dates today

/-- Spec-side definition, from the spec's words: the length of the longest
run of consecutive calendar days all present in the set — the maximum over
the dates `d` of the consecutive run extending downward from `d` (a maximal
run is counted in full from its top day). -/
def longestRunSpec (dates : List Int) : Nat :=
  (dates.map (runLenFrom dates)).foldr max 0

/-- Proof helper: the length of the gap-1 chain continuing right after `prev`
in a list walked pairwise. -/
def blockLen : Int → List Int → Nat
  | _, [] => 0
  | prev, curr :: rest => if prev - curr = 1 then blockLen curr rest + 1 else 0

/-- Proof helper: the best gap-1 chain starting at any suffix of the list. -/
def bestBlock : List Int → Nat
  | [] => 0
  | d :: rest => max (blockLen d rest + 1) (bestBlock rest)

/-- A calendar date as carried by a `YYYY-MM-DD` string: `new Date(date)` is
midnight UTC of that day and `getFullYear()` reads its year (UTC clock
assumed).  Two date strings are equal iff their fields are. -/
structure CalDate where
  year : Int
  month : Nat
  day : Nat
deriving DecidableEq, Repr

/-- One output row of `calculateYearlyStats` (lines 128-132):
`{ year, activeDays, contributions }`. -/
structure YearlyStat where
  year : Int
  activeDays : Nat
  contributions : Nat
deriving DecidableEq, Repr

/-- `calculateYearlyStats` (generate-stats.js lines 114-133).  The JS builds
an object keyed by year whose per-year record holds a `Set` of the full date
strings (`days`) and a raw counter (`contributions`); `Object.entries` of it,
sorted by `(a, b) => b[0] - a[0]`, is the distinct years in descending order
(the years are distinct keys, so the pre-sort entry order is irrelevant).
Per year, the `Set` size is the number of distinct dates of that year
(`filter` then `dedup`) and the counter is the raw number of input dates of
that year (`filter` length). -/
def calculateYearlyStats (dates : List CalDate) : List YearlyStat :=
  let years := (dates.map CalDate.year).dedup
  (years.insertionSort (· ≥ ·)).map fun y =>
    { year := y
      activeDays := ((dates.filter fun d => d.year == y).dedup).length
      contributions := (dates.filter fun d => d.year == y).length }

/-- Line 138: `const excludedLanguages = ['Open Policy Agent', 'SCSS', 'Scss']`
(`includes` on it is a case-sensitive exact string match). -/
def excludedLanguages : List String := ["Open Policy Agent", "SCSS", "Scss"]

/-- Line 148: `languages[lang] = (languages[lang] || 0) + bytes` on a plain JS
object: updating an existing key keeps its position, a new (non-integer-like)
key is appended in insertion order.  We model the object as an association
list in key-insertion order. -/
def addLangBytes (acc : List (String × Nat)) (lang : String) (bytes : Nat) :
    List (String × Nat) :=
  if acc.any fun p => p.1 = lang then
    acc.map fun p => if p.1 = lang then (p.1, p.2 + bytes) else p
  else acc ++ [(lang, bytes)]

/-- Lines 144-150: the per-repository inner loop over
`Object.entries(repoLangs)`, skipping excluded languages (`continue`) and
accumulating byte counts into `languages`. -/
def mergeRepoLangs (acc : List (String × Nat)) (repoLangs : List (String × Nat)) :
    List (String × Nat) :=
  repoLangs.foldl
    (fun a p => if p.1 ∈ excludedLanguages then a else addLangBytes a p.1 p.2) acc

/-- Lines 140-159: the outer loop of `getLanguageStats` over the repositories.
Each element is (repo name, result of the `/languages` fetch); a failed fetch
is caught (`catch`, line 157-158), contributing nothing to `languages`. -/
def aggregateLangs (repos : List (String × Except String (List (String × Nat)))) :
    List (String × Nat) :=
  repos.foldl
    (fun a r => match r.2 with | .ok ls => mergeRepoLangs a ls | .error _ => a) []

/-- The `console.log` lines emitted by the `catch` branch (line 158):
one `Could not fetch languages for ${repo.name}` per failing repository, in
order.  (The success-path debug logging of lines 152-156 carries no data used
later and is not modelled.) -/
def langFetchLogs (repos : List (String × Except String (List (String × Nat)))) :
    List String :=
  repos.filterMap fun r =>
    match r.2 with
    | .ok _ => none
    | .error _ => some ("Could not fetch languages for " ++ r.1)

/-- The value of the JS string `((bytes / total) * 100).toFixed(1)`.
For `total > 0` it is a one-decimal-digit number, modelled as its value in
tenths of a percent; `toFixed(1)` rounds to the nearest tenth (half away from
zero), which on naturals is `(2000 * bytes + total) / (2 * total)` (floor
division), i.e. round-half-up of `1000 * bytes / total`.  For `total = 0` the
JS division yields `NaN` (0/0) or `Infinity` (positive/0) and `toFixed`
returns the strings "NaN" / "Infinity".  (IEEE-754 evaluation of
`(bytes/total)*100` can differ from exact rounding only when the exact value
is within double-rounding distance of a tie `x.x5`; no concrete input used in
the theorems below is near a tie.) -/
inductive Pct where
  | nan
  | inf
  | tenths (n : Nat)
deriving DecidableEq, Repr

/-- See `Pct`. -/
def jsPct (bytes total : Nat) : Pct :=
  if total = 0 then (if bytes = 0 then Pct.nan else Pct.inf)
  else Pct.tenths ((2000 * bytes + total) / (2 * total))

/-- The numeric sort key of a percentage: `parseFloat` of the rendered string,
in tenths.  `Pct.nan` only arises when the total is 0, in which case every
entry is `NaN` and the JS comparator returns `NaN` throughout, which
`Array.prototype.sort` treats as 0 (order kept) — the same as giving all
entries one equal key.  `Pct.inf` never arises inside `getLanguageStats`
(each byte count is at most the total). -/
def pctKey : Pct → Nat
  | .tenths n => n
  | _ => 0

/-- One element of the `getLanguageStats` output (lines 173-177):
`{ name, percentage }`. -/
structure LangStat where
  name : String
  percentage : Pct
deriving DecidableEq, Repr

/-- The sort order of line 178, `(a, b) => parseFloat(b.percentage) -
parseFloat(a.percentage)`: `a` sorts no later than `b` iff the comparator is
≤ 0, i.e. `b`'s key is at most `a`'s (descending).  `Array.prototype.sort` is
stable, which `List.insertionSort` with this (total, transitive) relation
reproduces exactly. -/
def pctOrder (a b : LangStat) : Prop :=
  pctKey b.percentage ≤ pctKey a.percentage

instance : DecidableRel pctOrder := fun _ _ => Nat.decLe _ _

instance : IsTotal LangStat pctOrder := ⟨fun _ _ => Nat.le_total _ _⟩

instance : IsTrans LangStat pctOrder := ⟨fun _ _ _ h1 h2 => le_trans h2 h1⟩

/-- Line 161: `const total = Object.values(languages).reduce((sum, bytes) =>
sum + bytes, 0)`. -/
def totalBytes (repos : List (String × Except String (List (String × Nat)))) : Nat :=
  ((aggregateLangs repos).map Prod.snd).sum

/-- Lines 173-177: `Object.entries(languages).map(([name, bytes]) =>
({ name, percentage: ((bytes / total) * 100).toFixed(1) }))`. -/
def langEntries (repos : List (String × Except String (List (String × Nat)))) :
    List LangStat :=
  (aggregateLangs repos).map fun p => ⟨p.1, jsPct p.2 (totalBytes repos)⟩

/-- Line 178: the stable sort of the entries by percentage, descending. -/
def sortedLangEntries (repos : List (String × Except String (List (String × Nat)))) :
    List LangStat :=
  (langEntries repos).insertionSort pctOrder

/-- `getLanguageStats` (lines 136-180): aggregate, compute percentages, sort,
`slice(0, 10)`. -/
def getLanguageStats (repos : List (String × Except String (List (String × Nat)))) :
    List LangStat :=
  (sortedLangEntries repos).take 10

/-- The sum, in tenths of a percent, of the reported percentages over ALL
aggregated (non-excluded) languages — the top-10 output plus the implicit
remainder. -/
def allPctTenthsSum (repos : List (String × Except String (List (String × Nat)))) : Nat :=
  ((aggregateLangs repos).map fun p => pctKey (jsPct p.2 (totalBytes repos))).sum

/-- Proof helper: the sublist of entries whose percentage key is `v`. -/
def keyFilter (v : Nat) (l : List LangStat) : List LangStat :=
  l.filter fun e => pctKey e.percentage == v

/-- The rendered form of a percentage: `toFixed(1)` output. -/
def pctString : Pct → String
  | .nan => "NaN"
  | .inf => "Infinity"
  | .tenths n => toString (n / 10) ++ "." ++ toString (n % 10)

/-- `String.prototype.padEnd(n)`: pad on the right with spaces up to length
`n` (no-op if already at least `n` long). -/
def padEnd (s : String) (n : Nat) : String :=
  s ++ String.mk (List.replicate (n - s.length) ' ')

/-- `String.prototype.padStart(n)`: pad on the left with spaces. -/
def padStart (s : String) (n : Nat) : String :=
  String.mk (List.replicate (n - s.length) ' ') ++ s

/-- `generateProgressBar` (lines 184-187) at the default length 20:
`Math.round((percentage / 100) * 20)` filled cells.  With the percentage in
tenths this is round-half-up of `tenths / 50`, i.e. `(tenths + 25) / 50`.
`parseFloat("NaN")` propagates to `Math.round` and `"…".repeat(NaN)` repeats
0 times, giving an empty bar; an `Infinity` percentage would throw a
`RangeError` (unreachable here). -/
def generateProgressBar : Pct → String
  | .nan => ""
  | .inf => ""
  | .tenths n =>
    String.mk (List.replicate ((n + 25) / 50) '█' ++
      List.replicate (20 - (n + 25) / 50) '░')

/-- One line of the languages block (lines 225-227):
`` `${lang.name.padEnd(12)} ${generateProgressBar(parseFloat(lang.percentage))} ${lang.percentage.padStart(5)}%` ``. -/
def renderLangLine (e : LangStat) : String :=
  padEnd e.name 12 ++ " " ++ generateProgressBar e.percentage ++ " " ++
    padStart (pctString e.percentage) 5 ++ "%"

/-- `languagesContent` (lines 224-227): the language lines joined with
newlines — the text later wrapped in a code fence between the
`LANGUAGES_START`/`LANGUAGES_END` markers. -/
def languagesContent (repos : List (String × Except String (List (String × Nat)))) :
    String :=
  String.intercalate "\n" ((getLanguageStats repos).map renderLangLine)

/-- A commit record as consumed by `main` (lines 197-203): only
`commit.commit.author.date.split('T')[0]` is read, guarded by
`if (commit.commit && commit.commit.author)`.  `authorDate` is that date
string when the guard holds. -/
structure Commit where
  authorDate : Option String
deriving DecidableEq, Repr

/-- `getCommitActivity` (lines 53-62): on a successful fetch the commits are
returned; on failure the error is caught, `Could not fetch commits for
${owner}/${repo}` is logged and `[]` is returned.  The second component is
the log output. -/
def getCommitActivity (owner repo : String) (fetch : Except String (List Commit)) :
    List Commit × List String :=
  match fetch with
  | .ok commits => (commits, [])
  | .error _ => ([], ["Could not fetch commits for " ++ owner ++ "/" ++ repo])

/-- The date-collection loop of `main` (lines 195-204): for each repository
(owner, name, commit-fetch result) in order, append the author dates of the
commits `getCommitActivity` returned. -/
def collectAllDates (repos : List (String × String × Except String (List Commit))) :
    List String :=
  repos.foldl
    (fun acc r => acc ++ ((getCommitActivity r.1 r.2.1 r.2.2).1.filterMap Commit.authorDate))
    []

/-- Line 16: `'Authorization': ` + the template literal `` `token ${GITHUB_TOKEN}` ``.
A missing environment variable is `undefined`, which a template literal
interpolates as the string "undefined". -/
def authHeader (token : Option String) : String :=
  "token " ++ (match token with | some t => t | none => "undefined")

/-- Lines 13-18: the headers of every `githubRequest`. -/
def githubRequestHeaders (token : Option String) : List (String × String) :=
  [("User-Agent", "GitHub-Stats-Generator"),
   ("Authorization", authHeader token),
   ("Accept", "application/vnd.github.v3+json")]

/-- What the program does first, as a function of the environment: either
surface a configuration error, or issue an API request. -/
inductive StartupOutcome where
  | configError
  | apiRequest (auth : String) (path : String)
deriving DecidableEq, Repr

/-- Lines 4-5 read `process.env.GITHUB_TOKEN` / `process.env.USERNAME` with no
validation, and `main` (line 190) immediately calls `getAllRepos`, whose first
step (line 42) is `githubRequest('/user/repos?…page=1…')`.  There is no branch
on the environment anywhere before that request, so the first action is
unconditionally that request, with the token interpolated into the
Authorization header. -/
def mainStartup (token _username : Option String) : StartupOutcome :=
  StartupOutcome.apiRequest (authHeader token)
    "/user/repos?per_page=100&page=1&affiliation=owner,collaborator,organization_member"

/-! ### Streak lemmas -/

theorem findGreatest_shift (P Q : Nat → Prop) [DecidablePred P] [DecidablePred Q]
    (h1 : P 1) (hshift : ∀ k, P (k + 1) ↔ Q k) (b : Nat) :
    Nat.findGreatest P (b + 1) = Nat.findGreatest Q b + 1 := by
  obtain ⟨hle, hQ, hnot⟩ :=
    Nat.findGreatest_eq_iff.mp (rfl : Nat.findGreatest Q b = Nat.findGreatest Q b)
  apply Nat.findGreatest_eq_iff.mpr
  refine ⟨by omega, ?_, ?_⟩
  · intro _
    rcases Nat.eq_zero_or_pos (Nat.findGreatest Q b) with h0 | hpos
    · rw [h0]; exact h1
    · exact (hshift _).mpr (hQ (Nat.pos_iff_ne_zero.mp hpos))
  · intro n hn hnb hPn
    obtain ⟨n', rfl⟩ : ∃ n', n = n' + 1 := ⟨n - 1, by omega⟩
    exact hnot (by omega) (by omega) ((hshift n').mp hPn)

theorem findGreatest_zero_of_not (P : Nat → Prop) [DecidablePred P] (b : Nat)
    (h : ∀ n, 0 < n → ¬P n) : Nat.findGreatest P b = 0 :=
  Nat.findGreatest_eq_iff.mpr ⟨Nat.zero_le _, fun h0 => absurd rfl h0, fun n hn _ => h n hn⟩

theorem findGreatest_bound_ext (P : Nat → Prop) [DecidablePred P] {b b' : Nat}
    (hP : ∀ k, P k → k ≤ b) (hbb : b ≤ b') :
    Nat.findGreatest P b' = Nat.findGreatest P b := by
  obtain ⟨hle, hQ, hnot⟩ :=
    Nat.findGreatest_eq_iff.mp (rfl : Nat.findGreatest P b = Nat.findGreatest P b)
  apply Nat.findGreatest_eq_iff.mpr
  exact ⟨le_trans hle hbb, hQ, fun n hn _ hPn => hnot hn (hP n hPn) hPn⟩

theorem chain_le_dedup_length {S : List Int} {d : Int} {k : Nat}
    (h : ∀ j < k, d - (j : Int) ∈ S) : k ≤ S.dedup.length := by
  classical
  have hinj : Function.Injective fun j : Nat => d - (j : Int) := by
    intro a b hab
    simp only at hab
    omega
  have hcard : ((Finset.range k).image fun j : Nat => d - (j : Int)).card = k := by
    rw [Finset.card_image_of_injective _ hinj, Finset.card_range]
  have hsub : ((Finset.range k).image fun j : Nat => d - (j : Int)) ⊆ S.toFinset := by
    intro x hx
    simp only [Finset.mem_image, Finset.mem_range] at hx
    obtain ⟨j, hj, rfl⟩ := hx
    exact List.mem_toFinset.mpr (h j hj)
  have hle := Finset.card_le_card hsub
  rwa [hcard, List.card_toFinset] at hle

theorem runPred_iff_of_mem_ext {S₁ S₂ : List Int} {d : Int}
    (h : ∀ x : Int, x ≤ d → (x ∈ S₁ ↔ x ∈ S₂)) (k : Nat) :
    (∀ j < k, d - (j : Int) ∈ S₁) ↔ (∀ j < k, d - (j : Int) ∈ S₂) := by
  constructor <;> intro hk j hj
  · exact (h _ (by omega)).mp (hk j hj)
  · exact (h _ (by omega)).mpr (hk j hj)

theorem findGreatest_mem_ext {S₁ S₂ : List Int} {d : Int} (b : Nat)
    (h : ∀ x : Int, x ≤ d → (x ∈ S₁ ↔ x ∈ S₂)) :
    Nat.findGreatest (fun k => ∀ j < k, d - (j : Int) ∈ S₁) b
      = Nat.findGreatest (fun k => ∀ j < k, d - (j : Int) ∈ S₂) b := by
  obtain ⟨hle, hQ, hnot⟩ := Nat.findGreatest_eq_iff.mp
    (rfl : Nat.findGreatest (fun k => ∀ j < k, d - (j : Int) ∈ S₂) b
      = Nat.findGreatest (fun k => ∀ j < k, d - (j : Int) ∈ S₂) b)
  apply Nat.findGreatest_eq_iff.mpr
  refine ⟨hle, fun h0 => (runPred_iff_of_mem_ext h _).mpr (hQ h0), ?_⟩
  intro n hn hnb hPn
  exact hnot hn hnb ((runPred_iff_of_mem_ext h _).mp hPn)

theorem currentStreakLoop_eq_findGreatest (S : List Int) :
    ∀ (f : Nat) (d : Int),
      currentStreakLoop S d f
        = Nat.findGreatest (fun k => ∀ j < k, d - (j : Int) ∈ S) f := by
  intro f
  induction f with
  | zero => intro d; rfl
  | succ f ih =>
    intro d
    by_cases hd : d ∈ S
    · simp only [currentStreakLoop, if_pos hd]
      rw [ih (d - 1)]
      refine (findGreatest_shift _ _ ?_ ?_ f).symm
      · intro j hj
        have hj0 : j = 0 := by omega
        subst hj0
        simpa using hd
      · intro k
        constructor
        · intro hk j hj
          have hmem := hk (j + 1) (by omega)
          have hcast : d - ((j + 1 : Nat) : Int) = d - 1 - (j : Int) := by push_cast; ring
          rwa [hcast] at hmem
        · intro hk j hj
          rcases Nat.eq_zero_or_pos j with rfl | hpos
          · simpa using hd
          · obtain ⟨j', rfl⟩ : ∃ j', j = j' + 1 := ⟨j - 1, by omega⟩
            have hmem := hk j' (by omega)
            have hcast : d - 1 - (j' : Int) = d - ((j' + 1 : Nat) : Int) := by push_cast; ring
            rwa [hcast] at hmem
    · simp only [currentStreakLoop, if_neg hd]
      refine (findGreatest_zero_of_not _ _ ?_).symm
      intro n hn hPn
      have hmem := hPn 0 hn
      simp only [Nat.cast_zero, sub_zero] at hmem
      exact hd hmem

theorem sortedDatesOf_perm (dates : List Int) : (sortedDatesOf dates).Perm dates.dedup :=
  List.perm_insertionSort _ _

theorem sortedDatesOf_mem (dates : List Int) (x : Int) :
    x ∈ sortedDatesOf dates ↔ x ∈ dates :=
  (sortedDatesOf_perm dates).mem_iff.trans List.mem_dedup

theorem sortedDatesOf_length (dates : List Int) :
    (sortedDatesOf dates).length = dates.dedup.length :=
  (sortedDatesOf_perm dates).length_eq

theorem sortedDatesOf_sorted (dates : List Int) :
    List.Pairwise (· > ·) (sortedDatesOf dates) := by
  have h1 : List.Sorted (· ≥ ·) (sortedDatesOf dates) := List.sorted_insertionSort _ _
  have h2 : (sortedDatesOf dates).Nodup :=
    (sortedDatesOf_perm dates).symm.nodup (List.nodup_dedup dates)
  exact (h1.and h2).imp fun h => lt_of_le_of_ne h.1 (Ne.symm h.2)

theorem blockLen_loop :
    ∀ (rest : List Int) (d : Int), List.Pairwise (· > ·) (d :: rest) →
      currentStreakLoop (d :: rest) d (d :: rest).length = blockLen d rest + 1 := by
  intro rest
  induction rest with
  | nil =>
    intro d _
    simp [currentStreakLoop, blockLen]
  | cons c r ih =>
    intro d hs
    have hdc : d > c := (List.pairwise_cons.mp hs).1 c (by simp)
    have hs' : List.Pairwise (· > ·) (c :: r) := (List.pairwise_cons.mp hs).2
    rw [List.length_cons]
    rw [show currentStreakLoop (d :: c :: r) d ((c :: r).length + 1)
        = (if d ∈ d :: c :: r then
            currentStreakLoop (d :: c :: r) (d - 1) (c :: r).length + 1 else 0) from rfl]
    rw [if_pos (show d ∈ d :: c :: r by simp)]
    by_cases hgap : d - c = 1
    · have hc : c = d - 1 := by omega
      have hmem : ∀ x : Int, x ≤ d - 1 → (x ∈ d :: c :: r ↔ x ∈ c :: r) := by
        intro x hx
        simp only [List.mem_cons]
        constructor
        · rintro (rfl | hin)
          · exact absurd hx (by omega)
          · exact hin
        · exact Or.inr
      have h1 : currentStreakLoop (d :: c :: r) (d - 1) (c :: r).length
          = currentStreakLoop (c :: r) (d - 1) (c :: r).length := by
        rw [currentStreakLoop_eq_findGreatest, currentStreakLoop_eq_findGreatest]
        exact findGreatest_mem_ext _ hmem
      rw [h1, ← hc, ih c hs']
      simp only [blockLen, if_pos hgap]
    · have hr : ∀ x ∈ r, c > x := (List.pairwise_cons.mp hs').1
      have hnot : d - 1 ∉ d :: c :: r := by
        simp only [List.mem_cons]
        rintro (h | h | h)
        · omega
        · omega
        · have := hr _ h; omega
      rw [List.length_cons]
      rw [show currentStreakLoop (d :: c :: r) (d - 1) (r.length + 1)
          = (if d - 1 ∈ d :: c :: r then
              currentStreakLoop (d :: c :: r) (d - 1 - 1) r.length + 1 else 0) from rfl]
      rw [if_neg hnot]
      simp only [blockLen, if_neg hgap]

theorem longestStreakGo_eq :
    ∀ (rest : List Int) (prev : Int) (t l : Nat),
      longestStreakGo prev rest t l = max l (max (t + blockLen prev rest) (bestBlock rest)) := by
  intro rest
  induction rest with
  | nil =>
    intro prev t l
    simp only [longestStreakGo, blockLen, bestBlock]
    omega
  | cons c r ih =>
    intro prev t l
    by_cases hgap : prev - c = 1
    · simp only [longestStreakGo, if_pos hgap, blockLen, bestBlock, ih]
      omega
    · simp only [longestStreakGo, if_neg hgap, blockLen, bestBlock, ih]
      omega

theorem foldr_max_perm {l₁ l₂ : List Nat} (h : l₁.Perm l₂) :
    l₁.foldr max 0 = l₂.foldr max 0 := by
  induction h with
  | nil => rfl
  | cons x _ ih => simp only [List.foldr_cons, ih]
  | swap x y l => simp only [List.foldr_cons]; omega
  | trans _ _ ih₁ ih₂ => exact ih₁.trans ih₂

theorem le_foldr_max {f : Int → Nat} {l : List Int} {a : Int} (h : a ∈ l) :
    f a ≤ (l.map f).foldr max 0 := by
  induction l with
  | nil => cases h
  | cons b l ih =>
    rcases List.mem_cons.mp h with rfl | h'
    · simp only [List.map_cons, List.foldr_cons]
      omega
    · have := ih h'
      simp only [List.map_cons, List.foldr_cons]
      omega

theorem foldr_max_map_dedup (f : Int → Nat) (l : List Int) :
    (l.dedup.map f).foldr max 0 = (l.map f).foldr max 0 := by
  induction l with
  | nil => rfl
  | cons a l ih =>
    by_cases h : a ∈ l
    · rw [List.dedup_cons_of_mem h, ih]
      have := le_foldr_max (f := f) h
      simp only [List.map_cons, List.foldr_cons]
      omega
    · rw [List.dedup_cons_of_not_mem h]
      simp only [List.map_cons, List.foldr_cons, ih]

theorem bestBlock_eq_fold :
    ∀ L : List Int, List.Pairwise (· > ·) L →
      bestBlock L = (L.map fun c => currentStreakLoop L c L.length).foldr max 0 := by
  intro L
  induction L with
  | nil => intro _; rfl
  | cons d rest ih =>
    intro hs
    have hd : ∀ x ∈ rest, d > x := (List.pairwise_cons.mp hs).1
    have hs' : List.Pairwise (· > ·) rest := (List.pairwise_cons.mp hs).2
    have hhead : currentStreakLoop (d :: rest) d (d :: rest).length = blockLen d rest + 1 :=
      blockLen_loop rest d hs
    have htail : rest.map (fun c => currentStreakLoop (d :: rest) c (d :: rest).length)
        = rest.map fun c => currentStreakLoop rest c rest.length := by
      apply List.map_congr_left
      intro c hc
      have hcd : c < d := hd c hc
      rw [currentStreakLoop_eq_findGreatest, currentStreakLoop_eq_findGreatest]
      have hmem : ∀ x : Int, x ≤ c → (x ∈ d :: rest ↔ x ∈ rest) := by
        intro x hx
        simp only [List.mem_cons]
        constructor
        · rintro (rfl | hin)
          · exact absurd hx (by omega)
          · exact hin
        · exact Or.inr
      rw [findGreatest_mem_ext _ hmem]
      apply findGreatest_bound_ext
      · intro k hk
        exact le_trans (chain_le_dedup_length hk)
          (List.Sublist.length_le (List.dedup_sublist rest))
      · simp
    simp only [List.map_cons, List.foldr_cons]
    simp only [bestBlock]
    rw [hhead.symm, ih hs', ← htail]

/-- The current-streak loop over the sorted distinct dates computes the
spec-side current streak of the raw date list. -/
theorem loop_eq_runLenFrom (dates : List Int) (d : Int) :
    currentStreakLoop (sortedDatesOf dates) d (sortedDatesOf dates).length
      = runLenFrom dates d := by
  rw [currentStreakLoop_eq_findGreatest]
  have hmem : ∀ x : Int, x ≤ d → (x ∈ sortedDatesOf dates ↔ x ∈ dates) :=
    fun x _ => sortedDatesOf_mem dates x
  rw [findGreatest_mem_ext _ hmem, runLenFrom]
  refine (findGreatest_bound_ext _ ?_ ?_).symm
  · intro k hk
    rw [sortedDatesOf_length]
    exact chain_le_dedup_length hk
  · rw [sortedDatesOf_length]
    exact List.Sublist.length_le (List.dedup_sublist dates)

theorem calculateStreaks_of_ne_nil (today : Int) (dates : List Int) (h : dates ≠ []) :
    calculateStreaks today dates
      = { current := currentStreakLoop (sortedDatesOf dates) today (sortedDatesOf dates).length
          longest := longestStreak (sortedDatesOf dates)
          total := (sortedDatesOf dates).length } := by
  have hlen : ¬dates.length = 0 := fun h0 => h (List.length_eq_zero.mp h0)
  simp only [calculateStreaks, if_neg hlen]

theorem sortedDatesOf_ne_nil (dates : List Int) (h : dates ≠ []) :
    sortedDatesOf dates ≠ [] := by
  intro h0
  have hlen := sortedDatesOf_length dates
  rw [h0] at hlen
  have : dates.dedup = [] := List.length_eq_zero.mp hlen.symm
  exact h ((List.dedup_eq_nil dates).mp this)

/-- **C1.** The current streak computed by `calculateStreaks` equals the
spec-side count of consecutive present days ending at today (today included
only when present, stopping at the first missing day); and on the spec's two
concrete shapes — today plus the 4 preceding days, and today followed by a
gap then 3 consecutive earlier days — the current streak is 5 and 1
respectively. -/
theorem calculateStreaks_current_eq_spec :
    (∀ (today : Int) (dates : List Int),
        (calculateStreaks today dates).current = specCurrentStreak today dates)
      ∧ (calculateStreaks 100 [96, 97, 98, 99, 100]).current = 5
      ∧ (calculateStreaks 100 [96, 97, 98, 100]).current = 1 := by
  refine ⟨?_, by decide, by decide⟩
  intro today dates
  by_cases h : dates = []
  · subst h; rfl
  · rw [calculateStreaks_of_ne_nil today dates h]
    exact loop_eq_runLenFrom dates today

/-- **C2.** For every non-empty date list, the longest streak computed by
`calculateStreaks` (descending sort of the distinct dates, pairwise walk
extending on day-gap 1, closing otherwise, maximum tracked) equals the
spec-side length of the longest run of consecutive calendar days all present
in the set. -/
theorem calculateStreaks_longest_eq_spec (today : Int) (dates : List Int)
    (h : dates ≠ []) :
    (calculateStreaks today dates).longest = longestRunSpec dates := by
  rw [calculateStreaks_of_ne_nil today dates h]
  obtain ⟨d, rest, hL⟩ : ∃ d rest, sortedDatesOf dates = d :: rest := by
    cases hL : sortedDatesOf dates with
    | nil => exact absurd hL (sortedDatesOf_ne_nil dates h)
    | cons d rest => exact ⟨d, rest, rfl⟩
  have hsorted : List.Pairwise (· > ·) (sortedDatesOf dates) := sortedDatesOf_sorted dates
  have hbest : longestStreak (sortedDatesOf dates) = bestBlock (sortedDatesOf dates) := by
    rw [hL]
    simp only [longestStreak, bestBlock]
    rw [longestStreakGo_eq]
    omega
  rw [hbest, bestBlock_eq_fold _ hsorted]
  have hmap : (sortedDatesOf dates).map
        (fun c => currentStreakLoop (sortedDatesOf dates) c (sortedDatesOf dates).length)
      = (sortedDatesOf dates).map (runLenFrom dates) :=
    List.map_congr_left fun c _ => loop_eq_runLenFrom dates c
  rw [hmap, longestRunSpec]
  have hperm : ((sortedDatesOf dates).map (runLenFrom dates)).Perm
      (dates.dedup.map (runLenFrom dates)) := (sortedDatesOf_perm dates).map _
  rw [foldr_max_perm hperm, foldr_max_map_dedup]

/-- Witness for C2 at a concrete nonempty input: a set with today, a gap,
then a 3-day run has longest streak 3 on both sides. -/
theorem calculateStreaks_longest_eq_spec_witness :
    ([96, 97, 98, 100] : List Int) ≠ []
      ∧ (calculateStreaks 100 [96, 97, 98, 100]).longest = longestRunSpec [96, 97, 98, 100] :=
  ⟨by decide, calculateStreaks_longest_eq_spec 100 [96, 97, 98, 100] (by decide)⟩

/-- **C3.** On the empty date list `calculateStreaks` returns exactly
`{current := 0, longest := 0, total := 0}`. -/
theorem calculateStreaks_empty (today : Int) :
    calculateStreaks today [] = ⟨0, 0, 0⟩ := rfl

/-! ### Yearly statistics -/

/-- The sorted distinct-years list inside `calculateYearlyStats` is the same
construction as the sorted distinct-dates list of `calculateStreaks`. -/
theorem calculateYearlyStats_eq (dates : List CalDate) :
    calculateYearlyStats dates
      = (sortedDatesOf (dates.map CalDate.year)).map fun y =>
          { year := y
            activeDays := ((dates.filter fun d => d.year == y).dedup).length
            contributions := (dates.filter fun d => d.year == y).length } := rfl

/-- **C4.** `calculateYearlyStats` is invariant under permutation of the
input dates; its output is sorted by year strictly descending; each row's
active-day count is the number of distinct dates of that year and its
contribution count the raw number of input dates of that year. -/
theorem calculateYearlyStats_perm_sorted :
    ∀ l₁ l₂ : List CalDate, l₁.Perm l₂ →
      calculateYearlyStats l₁ = calculateYearlyStats l₂
        ∧ (calculateYearlyStats l₁).Pairwise (fun a b => b.year < a.year)
        ∧ ∀ s ∈ calculateYearlyStats l₁,
            s.activeDays = ((l₁.filter fun d => d.year == s.year).dedup).length
              ∧ s.contributions = (l₁.filter fun d => d.year == s.year).length := by
  intro l₁ l₂ h
  refine ⟨?_, ?_, ?_⟩
  · have hyears : sortedDatesOf (l₁.map CalDate.year) = sortedDatesOf (l₂.map CalDate.year) := by
      apply List.eq_of_perm_of_sorted (r := (· ≥ ·))
      · exact (sortedDatesOf_perm _).trans (((h.map CalDate.year).dedup).trans
          (sortedDatesOf_perm _).symm)
      · exact List.sorted_insertionSort _ _
      · exact List.sorted_insertionSort _ _
    rw [calculateYearlyStats_eq, calculateYearlyStats_eq, hyears]
    apply List.map_congr_left
    intro y _
    have hfilter := h.filter fun d => d.year == y
    rw [hfilter.length_eq, (hfilter.dedup).length_eq]
  · rw [calculateYearlyStats_eq]
    apply List.pairwise_map.mpr
    exact (sortedDatesOf_sorted (l₁.map CalDate.year)).imp fun hab => hab
  · intro s hs
    rw [calculateYearlyStats_eq] at hs
    obtain ⟨y, _, rfl⟩ := List.mem_map.mp hs
    exact ⟨rfl, rfl⟩

/-- Witness for C4 at a concrete permutation pair. -/
theorem calculateYearlyStats_perm_sorted_witness :
    ([⟨2024, 1, 2⟩, ⟨2023, 3, 4⟩] : List CalDate).Perm [⟨2023, 3, 4⟩, ⟨2024, 1, 2⟩]
      ∧ calculateYearlyStats [⟨2024, 1, 2⟩, ⟨2023, 3, 4⟩]
          = calculateYearlyStats [⟨2023, 3, 4⟩, ⟨2024, 1, 2⟩] :=
  ⟨by decide, (calculateYearlyStats_perm_sorted _ _ (by decide)).1⟩

/-! ### Language statistics -/

theorem addLangBytes_not_excluded {acc : List (String × Nat)} {lang : String} {bytes : Nat}
    (hacc : ∀ p ∈ acc, p.1 ∉ excludedLanguages) (hlang : lang ∉ excludedLanguages) :
    ∀ p ∈ addLangBytes acc lang bytes, p.1 ∉ excludedLanguages := by
  intro p hp
  unfold addLangBytes at hp
  split at hp
  · obtain ⟨q, hq, hpq⟩ := List.mem_map.mp hp
    have hfst : p.1 = q.1 := by
      rw [← hpq]
      split <;> rfl
    rw [hfst]
    exact hacc q hq
  · rcases List.mem_append.mp hp with h | h
    · exact hacc p h
    · have : p = (lang, bytes) := by simpa using h
      rw [this]
      exact hlang

theorem mergeRepoLangs_not_excluded :
    ∀ (repoLangs : List (String × Nat)) (acc : List (String × Nat)),
      (∀ p ∈ acc, p.1 ∉ excludedLanguages) →
      ∀ p ∈ mergeRepoLangs acc repoLangs, p.1 ∉ excludedLanguages := by
  intro repoLangs
  induction repoLangs with
  | nil => intro acc hacc; exact hacc
  | cons q qs ih =>
    intro acc hacc
    have hstep : mergeRepoLangs acc (q :: qs)
        = mergeRepoLangs
            (if q.1 ∈ excludedLanguages then acc else addLangBytes acc q.1 q.2) qs := rfl
    rw [hstep]
    by_cases hq : q.1 ∈ excludedLanguages
    · rw [if_pos hq]
      exact ih acc hacc
    · rw [if_neg hq]
      exact ih _ (addLangBytes_not_excluded hacc hq)

theorem aggregateLangs_foldl_not_excluded :
    ∀ (repos : List (String × Except String (List (String × Nat))))
      (acc : List (String × Nat)), (∀ p ∈ acc, p.1 ∉ excludedLanguages) →
      ∀ p ∈ repos.foldl
        (fun a r => match r.2 with | .ok ls => mergeRepoLangs a ls | .error _ => a) acc,
        p.1 ∉ excludedLanguages := by
  intro repos
  induction repos with
  | nil => intro acc hacc; exact hacc
  | cons r rs ih =>
    intro acc hacc
    rcases r with ⟨name, res⟩
    cases res with
    | ok ls => exact ih _ (mergeRepoLangs_not_excluded ls acc hacc)
    | error e => exact ih _ hacc

theorem aggregateLangs_not_excluded
    (repos : List (String × Except String (List (String × Nat)))) :
    ∀ p ∈ aggregateLangs repos, p.1 ∉ excludedLanguages :=
  aggregateLangs_foldl_not_excluded repos [] (by intro p hp; cases hp)

theorem mem_getLanguageStats_mem_entries
    {repos : List (String × Except String (List (String × Nat)))} {e : LangStat}
    (he : e ∈ getLanguageStats repos) : e ∈ langEntries repos := by
  have h1 : e ∈ sortedLangEntries repos := List.mem_of_mem_take he
  exact (List.perm_insertionSort pctOrder (langEntries repos)).mem_iff.mp h1

/-- **C7.** A language whose name is on the exclusion list (case-sensitive
exact match) never appears in the language output — hence not in the
rendered fragment, which is exactly the join of the per-entry lines — no
matter its byte count; and a name differing only in case (lowercase "scss")
is not excluded. -/
theorem getLanguageStats_excludes :
    (∀ (repos : List (String × Except String (List (String × Nat)))),
        ∀ e ∈ getLanguageStats repos, e.name ∉ excludedLanguages)
      ∧ (∀ (repos : List (String × Except String (List (String × Nat)))),
          languagesContent repos
            = String.intercalate "\n" ((getLanguageStats repos).map renderLangLine))
      ∧ getLanguageStats [("r", Except.ok [("scss", 7)])] = [⟨"scss", Pct.tenths 1000⟩] := by
  refine ⟨?_, fun _ => rfl, by decide⟩
  intro repos e he
  obtain ⟨p, hp, rfl⟩ := List.mem_map.mp (mem_getLanguageStats_mem_entries he)
  exact aggregateLangs_not_excluded repos p hp

/-- Witness for C7 at a concrete input: the largest-byte language `SCSS` is
excluded from the output. -/
theorem getLanguageStats_excludes_witness :
    ((⟨"TypeScript", Pct.tenths 600⟩ : LangStat)
        ∈ getLanguageStats [("r", Except.ok [("TypeScript", 600), ("SCSS", 9999), ("Lua", 400)])])
      ∧ (⟨"TypeScript", Pct.tenths 600⟩ : LangStat).name ∉ excludedLanguages :=
  ⟨by decide,
    getLanguageStats_excludes.1 [("r", Except.ok [("TypeScript", 600), ("SCSS", 9999), ("Lua", 400)])]
      ⟨"TypeScript", Pct.tenths 600⟩ (by decide)⟩

/-- **C10.** When the total over the aggregated (non-excluded) languages is
zero, every returned entry's percentage is the JS `NaN` of the unguarded
`(0 / 0) * 100`, rendered as the string "NaN". -/
theorem getLanguageStats_nan
    (repos : List (String × Except String (List (String × Nat))))
    (h : totalBytes repos = 0) :
    ∀ e ∈ getLanguageStats repos, e.percentage = Pct.nan := by
  intro e he
  obtain ⟨p, hp, rfl⟩ := List.mem_map.mp (mem_getLanguageStats_mem_entries he)
  have hzero : p.2 = 0 := by
    have hsum : ((aggregateLangs repos).map Prod.snd).sum = 0 := h
    exact List.sum_eq_zero_iff.mp hsum p.2 (List.mem_map_of_mem Prod.snd hp)
  show jsPct p.2 (totalBytes repos) = Pct.nan
  rw [h, hzero]
  rfl

/-- Witness for C10: a single zero-byte language yields a `NaN` entry. -/
theorem getLanguageStats_nan_witness :
    totalBytes [("r", Except.ok [("X", 0)])] = 0
      ∧ (⟨"X", Pct.nan⟩ : LangStat) ∈ getLanguageStats [("r", Except.ok [("X", 0)])]
      ∧ (⟨"X", Pct.nan⟩ : LangStat).percentage = Pct.nan :=
  ⟨by decide, by decide,
    getLanguageStats_nan [("r", Except.ok [("X", 0)])] (by decide)
      ⟨"X", Pct.nan⟩ (by decide)⟩

theorem sum_div_le (l : List Nat) (D : Nat) : (l.map (· / D)).sum ≤ l.sum / D := by
  induction l with
  | nil => simp
  | cons a l ih =>
    simp only [List.map_cons, List.sum_cons]
    calc a / D + (l.map (· / D)).sum ≤ a / D + l.sum / D := by omega
      _ ≤ (a + l.sum) / D := by
        rcases Nat.eq_zero_or_pos D with rfl | hD
        · simp
        · rw [Nat.le_div_iff_mul_le hD]
          have h1 := Nat.div_mul_le_self a D
          have h2 := Nat.div_mul_le_self l.sum D
          calc (a / D + l.sum / D) * D = a / D * D + l.sum / D * D := by ring
            _ ≤ a + l.sum := by omega

theorem sum_map_affine (l : List (String × Nat)) (t : Nat) :
    (l.map fun p => 2000 * p.2 + t).sum = 2000 * (l.map Prod.snd).sum + l.length * t := by
  induction l with
  | nil => simp
  | cons a l ih =>
    simp only [List.map_cons, List.sum_cons, List.length_cons, ih]
    ring

/-- **C5 (counterexample).** At byte counts 3326/3336/3338 (total 10000) the
true shares are 33.26 %, 33.36 %, 33.38 %; `toFixed(1)` rounds them to 33.3,
33.4 and 33.4, whose sum 100.1 exceeds 100.0 — refuting "never exceed
100.0" summed over all non-excluded languages. -/
theorem allPctTenthsSum_counterexample :
    allPctTenthsSum [("r", Except.ok [("a", 3326), ("b", 3336), ("c", 3338)])] = 1001
      ∧ 1000 < allPctTenthsSum [("r", Except.ok [("a", 3326), ("b", 3336), ("c", 3338)])] := by
  refine ⟨by decide, by decide⟩

/-- **C5 (amended).** The reported percentages are each the language's share
of the total over the remaining languages rounded to one decimal digit, and
their sum over all non-excluded languages is at most 100.0 plus 0.05 per
language (in tenths: twice the sum is at most 2000 + n); the 100.0 bound
itself does not hold (see the counterexample). -/
theorem allPctTenthsSum_bound :
    (∀ repos : List (String × Except String (List (String × Nat))),
        2 * allPctTenthsSum repos ≤ 2000 + (aggregateLangs repos).length)
      ∧ ∀ repos : List (String × Except String (List (String × Nat))),
          ∀ e ∈ getLanguageStats repos,
            ∃ b, (e.name, b) ∈ aggregateLangs repos
              ∧ e.percentage = jsPct b (totalBytes repos) := by
  constructor
  · intro repos
    by_cases ht : totalBytes repos = 0
    · have hzero : allPctTenthsSum repos = 0 := by
        apply List.sum_eq_zero_iff.mpr
        intro x hx
        obtain ⟨p, _, rfl⟩ := List.mem_map.mp hx
        rw [ht]
        by_cases hb : p.2 = 0 <;> simp [jsPct, hb, pctKey]
      rw [hzero]
      omega
    · have hpos : 0 < totalBytes repos := Nat.pos_of_ne_zero ht
      have hterm : ((aggregateLangs repos).map
            fun p => pctKey (jsPct p.2 (totalBytes repos)))
          = (aggregateLangs repos).map
            fun p => (2000 * p.2 + totalBytes repos) / (2 * totalBytes repos) := by
        apply List.map_congr_left
        intro p _
        rw [jsPct, if_neg ht]
        rfl
      have hsum : allPctTenthsSum repos
          ≤ ((aggregateLangs repos).map fun p => 2000 * p.2 + totalBytes repos).sum
              / (2 * totalBytes repos) := by
        rw [allPctTenthsSum, hterm]
        have hcomp : ((aggregateLangs repos).map
              fun p => (2000 * p.2 + totalBytes repos) / (2 * totalBytes repos))
            = (((aggregateLangs repos).map fun p => 2000 * p.2 + totalBytes repos).map
                (· / (2 * totalBytes repos))) := by
          rw [List.map_map]
          rfl
        rw [hcomp]
        exact sum_div_le _ _
      have hnum : ((aggregateLangs repos).map fun p => 2000 * p.2 + totalBytes repos).sum
          = (2000 + (aggregateLangs repos).length) * totalBytes repos := by
        rw [sum_map_affine]
        have : ((aggregateLangs repos).map Prod.snd).sum = totalBytes repos := rfl
        rw [this]
        ring
      rw [hnum] at hsum
      have hdiv : ((2000 + (aggregateLangs repos).length) * totalBytes repos)
            / (2 * totalBytes repos) * (2 * totalBytes repos)
          ≤ (2000 + (aggregateLangs repos).length) * totalBytes repos :=
        Nat.div_mul_le_self _ _
      have hfinal : 2 * (((2000 + (aggregateLangs repos).length) * totalBytes repos)
            / (2 * totalBytes repos))
          ≤ 2000 + (aggregateLangs repos).length := by
        apply Nat.le_of_mul_le_mul_right _ hpos
        calc 2 * ((2000 + (aggregateLangs repos).length) * totalBytes repos
              / (2 * totalBytes repos)) * totalBytes repos
            = (2000 + (aggregateLangs repos).length) * totalBytes repos
              / (2 * totalBytes repos) * (2 * totalBytes repos) := by ring
          _ ≤ (2000 + (aggregateLangs repos).length) * totalBytes repos := hdiv
      omega
  · intro repos e he
    obtain ⟨p, hp, rfl⟩ := List.mem_map.mp (mem_getLanguageStats_mem_entries he)
    exact ⟨p.2, by simpa using hp, rfl⟩

/-- Witness for C5 (amended) at a single-language input: the one entry's
percentage is its share of the total. -/
theorem allPctTenthsSum_bound_witness :
    ((⟨"A", Pct.tenths 1000⟩ : LangStat) ∈ getLanguageStats [("r", Except.ok [("A", 1)])])
      ∧ ∃ b, (("A", b) ∈ aggregateLangs [("r", Except.ok [("A", 1)])])
          ∧ (⟨"A", Pct.tenths 1000⟩ : LangStat).percentage
              = jsPct b (totalBytes [("r", Except.ok [("A", 1)])]) :=
  ⟨by decide,
    allPctTenthsSum_bound.2 [("r", Except.ok [("A", 1)])]
      ⟨"A", Pct.tenths 1000⟩ (by decide)⟩

theorem keyFilter_cons (v : Nat) (x : LangStat) (l : List LangStat) :
    keyFilter v (x :: l)
      = if pctKey x.percentage = v then x :: keyFilter v l else keyFilter v l := by
  simp only [keyFilter, List.filter_cons]
  by_cases h : pctKey x.percentage = v
  · rw [if_pos (by simpa using h), if_pos h]
  · rw [if_neg (by simpa using h), if_neg h]

theorem orderedInsert_keyFilter (a : LangStat) (v : Nat) :
    ∀ L : List LangStat,
      keyFilter v (L.orderedInsert pctOrder a)
        = if pctKey a.percentage = v then a :: keyFilter v L else keyFilter v L := by
  intro L
  induction L with
  | nil =>
    rw [List.orderedInsert, keyFilter_cons]
  | cons b L ih =>
    rw [List.orderedInsert]
    by_cases hab : pctOrder a b
    · rw [if_pos hab, keyFilter_cons]
    · rw [if_neg hab, keyFilter_cons, ih, keyFilter_cons]
      have hlt : pctKey a.percentage < pctKey b.percentage := Nat.lt_of_not_le hab
      split_ifs <;> first | rfl | omega

theorem insertionSort_keyFilter (v : Nat) :
    ∀ L : List LangStat, keyFilter v (L.insertionSort pctOrder) = keyFilter v L := by
  intro L
  induction L with
  | nil => rfl
  | cons a L ih =>
    rw [List.insertionSort, orderedInsert_keyFilter, ih, keyFilter_cons]

/-- **C6 (counterexample).** With byte counts c = 3328, a = 3334, b = 3338
(insertion order c, a, b; total 10000), `toFixed(1)` gives 33.3 %, 33.3 %,
33.4 %: languages "c" and "a" tie at 33.3.  The stable sort keeps their
first-encounter order, so "c" (3328 bytes) precedes "a" (3334 bytes) in the
output, while tie-breaking by descending byte totals would demand "a" before
"c". -/
theorem getLanguageStats_tie_counterexample :
    getLanguageStats [("r", Except.ok [("c", 3328), ("a", 3334), ("b", 3338)])]
        = [⟨"b", Pct.tenths 334⟩, ⟨"c", Pct.tenths 333⟩, ⟨"a", Pct.tenths 333⟩]
      ∧ getLanguageStats [("r", Except.ok [("c", 3328), ("a", 3334), ("b", 3338)])]
          ≠ [⟨"b", Pct.tenths 334⟩, ⟨"a", Pct.tenths 333⟩, ⟨"c", Pct.tenths 333⟩]
      ∧ (aggregateLangs [("r", Except.ok [("c", 3328), ("a", 3334), ("b", 3338)])]).lookup "a"
          = some 3334
      ∧ (aggregateLangs [("r", Except.ok [("c", 3328), ("a", 3334), ("b", 3338)])]).lookup "c"
          = some 3328 := by
  exact ⟨by decide, by decide, by decide, by decide⟩

/-- **C6 (amended).** `getLanguageStats` returns at most 10 languages, sorted
by (rounded) percentage descending; entries with equal rounded percentage
keep their relative order from the aggregation map's insertion order (the
order languages were first encountered) — the stable sort leaves every
equal-percentage class of the entry list unpermuted — which is not in
general the descending-byte-total order (see the counterexample). -/
theorem getLanguageStats_sorted_stable :
    ∀ repos : List (String × Except String (List (String × Nat))),
      (getLanguageStats repos).length ≤ 10
        ∧ (getLanguageStats repos).Pairwise pctOrder
        ∧ ∀ v, keyFilter v (sortedLangEntries repos) = keyFilter v (langEntries repos) := by
  intro repos
  refine ⟨?_, ?_, ?_⟩
  · rw [getLanguageStats, List.length_take]
    exact min_le_left _ _
  · exact List.Pairwise.sublist (List.take_sublist _ _)
      (List.sorted_insertionSort pctOrder (langEntries repos))
  · intro v
    exact insertionSort_keyFilter v (langEntries repos)

/-! ### Per-repository failure tolerance and startup -/

/-- **C8.** A failed commit fetch for one repository is caught: the log line
names the repository (`owner/repo`) and the empty list is substituted, so the
date-collection loop over the remaining repositories is unaffected; the same
substitution holds for a failed per-repository language fetch inside
`getLanguageStats` (aggregation unchanged, one log line naming the repo). -/
theorem perRepo_failure_tolerated :
    (∀ owner repo err : String,
        getCommitActivity owner repo (Except.error err)
          = ([], ["Could not fetch commits for " ++ owner ++ "/" ++ repo]))
      ∧ (∀ (L R : List (String × String × Except String (List Commit))) (o r err : String),
          collectAllDates (L ++ (o, r, Except.error err) :: R) = collectAllDates (L ++ R))
      ∧ (∀ (L R : List (String × Except String (List (String × Nat)))) (n err : String),
          aggregateLangs (L ++ (n, Except.error err) :: R) = aggregateLangs (L ++ R))
      ∧ (∀ (L R : List (String × Except String (List (String × Nat)))) (n err : String),
          langFetchLogs (L ++ (n, Except.error err) :: R)
            = langFetchLogs L ++ ("Could not fetch languages for " ++ n) :: langFetchLogs R) := by
  refine ⟨fun _ _ _ => rfl, ?_, ?_, ?_⟩
  · intro L R o r err
    simp [collectAllDates, List.foldl_append, List.foldl_cons, getCommitActivity]
  · intro L R n err
    simp [aggregateLangs, List.foldl_append, List.foldl_cons]
  · intro L R n err
    simp [langFetchLogs, List.filterMap_append, List.filterMap_cons]

/-- **C9 (counterexample).** With both environment variables absent, the
program does not surface a configuration error: its first action is still the
repository-list API request, and the Authorization header it would send is
the literal string "token undefined". -/
theorem mainStartup_counterexample :
    mainStartup none none ≠ StartupOutcome.configError
      ∧ mainStartup none none
          = StartupOutcome.apiRequest "token undefined"
              "/user/repos?per_page=100&page=1&affiliation=owner,collaborator,organization_member"
      ∧ (githubRequestHeaders none).lookup "Authorization" = some "token undefined" :=
  ⟨by decide, rfl, by decide⟩

/-- **C9 (amended).** The program performs no startup validation of the
credential token or username: for every environment it unconditionally
proceeds to the first repository-list API request, interpolating the (possibly
missing) token into the Authorization header; a missing value therefore
surfaces only later, as an API error on that request. -/
theorem mainStartup_no_validation :
    ∀ token username : Option String,
      mainStartup token username
          = StartupOutcome.apiRequest (authHeader token)
              "/user/repos?per_page=100&page=1&affiliation=owner,collaborator,organization_member"
        ∧ mainStartup token username ≠ StartupOutcome.configError := by
  intro t u
  exact ⟨rfl, by simp [mainStartup]⟩

